import Mathlib

/-!
# Verification of the `decaptcha` multi-model ensemble recognizer

Shallow embedding of the OpenRouter-based `VllmOcr` class of `index.mjs`
(the multi-model voting variant): text normalization (`_postProcess`),
the voting resolver (`_vote`), result sorting
(`_sortResultsByModelOrder`), candidate extraction from parsed provider
responses, the robust JSON-substring extraction step, and the
fan-out dispatcher of `recognize` (exhaustive and fast/early-consensus
modes), modelled as sequential processing of an arrival sequence of
settled provider calls.

Conventions of the embedding:
* JavaScript strings are Lean `String`s (lists of `Char`); the JSON
  recovery parser works over `List Char` directly.
* JS `null`/`undefined` arguments are `Option`'s `none`.
* JS objects used as counters (`counts[cand] = (counts[cand] || 0) + 1`)
  are association lists `List (String × Nat)` in key-insertion order,
  which is exactly the enumeration order of `Object.entries`.
* `Array.prototype.sort`, guaranteed stable by the ECMAScript spec, is
  modelled by `List.insertionSort` (a stable sort) with the comparator's
  induced total preorder.
* `String.prototype.toUpperCase` is modelled with the ASCII simple case
  mapping `Char.toUpper`; the subsequent `replace(/[^A-Z0-9]/g, '')`
  filter restricts the alphabet to {A-Z, 0-9} in either semantics.
-/

namespace VllmOcr

/-- The character class `[A-Z0-9]` of the `_postProcess` regular
expression, written on code points (65-90 are `A`-`Z`, 48-57 are
`0`-`9`). -/
def isUpperAlnum (c : Char) : Bool :=
  (65 ≤ c.toNat && c.toNat ≤ 90) || (48 ≤ c.toNat && c.toNat ≤ 57)

/-- `VllmOcr._postProcess` (index.mjs):
`if (!text) return ''; return text.toUpperCase().replace(/[^A-Z0-9]/g, '');`
`none` models a JS `null`/`undefined` argument; the falsy check also
returns `''` for the empty string. -/
def _postProcess : Option String → String
  | none => ""
  | some s =>
    if s = "" then ""
    else String.mk ((s.data.map Char.toUpper).filter isUpperAlnum)

/-- One entry of the `results` array built by `recognize`: either a
settled call `{ model, candidates, duration }` (with `error` set and
`candidates = []` for a non-abort failure returned by
`_callOpenRouter`'s catch) or a skipped entry
`{ model, error, candidates: [] }` pushed on `AbortError`. -/
structure ProviderResult where
  model : String
  candidates : List String
  error : Option String := none
  duration : Nat := 0
  deriving Repr, DecidableEq

/-- One step of `counts[cand] = (counts[cand] || 0) + 1` on an
association list in key-insertion order: an existing key keeps its
position, a new key is appended. -/
def bump : List (String × Nat) → String → List (String × Nat)
  | [], cand => [(cand, 1)]
  | (k, v) :: rest, cand =>
    if k = cand then (k, v + 1) :: rest else (k, v) :: bump rest cand

/-- The tally loop of `_vote` (index.mjs): for each result with a
non-empty candidate list, count every candidate occurrence.  (The
`result.candidates && result.candidates.length > 0` guard is a no-op
for the counting: an empty list contributes nothing.) -/
def countsOf (results : List ProviderResult) : List (String × Nat) :=
  results.foldl (fun acc r => r.candidates.foldl bump acc) []

/-- `counts[cand] || 0`: the tallied count of a string in an
association list. -/
def lookupCount (counts : List (String × Nat)) (s : String) : Nat :=
  match counts.find? (fun p => p.1 == s) with
  | some p => p.2
  | none => 0

/-- `Object.entries(counts).sort((a, b) => b[1] - a[1])`: stable sort
by count, descending.  Modelled with `List.insertionSort`, which is
stable, on the comparator's total preorder. -/
def sortByCountDesc (l : List (String × Nat)) : List (String × Nat) :=
  l.insertionSort (fun a b => b.2 ≤ a.2)

/-- The tie-breaking loop of `_vote` (index.mjs): walk `this.models`
in configured order; for each, `results.find(r => r.model === model)`,
then walk that result's candidates in order and return the first one
with `topCandidates.includes(cand)`. -/
def tieBreakLoop : List String → List ProviderResult → List String → Option String
  | [], _, _ => none
  | model :: ms, results, top =>
    match results.find? (fun r => r.model == model) with
    | some r =>
      match r.candidates.find? (fun cand => top.contains cand) with
      | some c => some c
      | none => tieBreakLoop ms results top
    | none => tieBreakLoop ms results top

/-- `VllmOcr._vote` (index.mjs).  Returns `none` for the JS `null`
("no decision").  `models` is `this.models`, the configured
provider-priority order. -/
def _vote (models : List String) (results : List ProviderResult) : Option String :=
  let counts := countsOf results
  let sortedCandidates := sortByCountDesc counts
  match sortedCandidates with
  | [] => none
  | top :: rest =>
    let maxVotes := top.2
    let topCandidates := ((top :: rest).filter (fun p => p.2 == maxVotes)).map Prod.fst
    if topCandidates.length == 1 then topCandidates.head?
    else
      match tieBreakLoop models results topCandidates with
      | some c => some c
      | none => topCandidates.head?

/-- `VllmOcr._sortResultsByModelOrder` (index.mjs):
`results.sort((a, b) => this.models.indexOf(a.model) - this.models.indexOf(b.model))`
— a stable in-place sort by configured model position.  (`List.indexOf`
returns `models.length` for an absent model where JS returns `-1`; in
`recognize` every result's model is drawn from `this.models`, so the
two agree on all inputs that arise.) -/
def _sortResultsByModelOrder (models : List String) (results : List ProviderResult) :
    List ProviderResult :=
  results.insertionSort (fun a b => models.indexOf a.model ≤ models.indexOf b.model)

/-! ## Provider-response candidate extraction (`_callOpenRouter`) -/

/-- The two fields of the decoded JSON object that `_callOpenRouter`
inspects: `results` (`some arr` iff `Array.isArray(parsed.results)`,
with `none` entries for array elements that are JS `null`/`undefined`)
and `text`. -/
structure ParsedResponse where
  results : Option (List (Option String))
  text : Option String
  deriving Repr, DecidableEq

/-- The candidate-building branch of `_callOpenRouter` (index.mjs):
`if (Array.isArray(parsed.results)) candidates = parsed.results.map(t => this._postProcess(t)).filter(t => t);`
`else if (parsed.text) { const processed = this._postProcess(parsed.text); if (processed) candidates = [processed]; }`
(a JS string is truthy iff non-empty). -/
def extractCandidates (p : ParsedResponse) : List String :=
  match p.results with
  | some arr => (arr.map _postProcess).filter (fun t => t ≠ "")
  | none =>
    match p.text with
    | some t =>
      if t ≠ "" then
        (if _postProcess (some t) ≠ "" then [_postProcess (some t)] else [])
      else []
    | none => []

/-- The guard after extraction: `if (candidates.length === 0) throw ...`,
converted by `_callOpenRouter`'s outer catch into a failed result. -/
def parseCandidates (p : ParsedResponse) : Except String (List String) :=
  let candidates := extractCandidates p
  if candidates.isEmpty then
    Except.error "JSON response missing results array or text field"
  else Except.ok candidates

/-! ## Robust JSON-substring extraction (`_callOpenRouter`)

The recovery step
```
let jsonString = content;
const codeBlockMatch = content.match(/\x60\x60\x60(?:json)?\s*([\s\S]*?)\s*\x60\x60\x60/i);
if (codeBlockMatch) jsonString = codeBlockMatch[1];
const startIndex = jsonString.indexOf('\x7b');
const endIndex = jsonString.lastIndexOf('\x7d');
if (startIndex !== -1 && endIndex !== -1 && endIndex > startIndex)
    jsonString = jsonString.substring(startIndex, endIndex + 1);
```
modelled over `List Char`.  `indexOf`/`lastIndexOf` return
`Option Nat` instead of `-1`.  The leftmost-match/lazy-capture
semantics of the fence regex reduce to: take the first fence
occurrence that is followed by a later fence; the capture is the text
between them with the optional (case-insensitive) `json` tag and
surrounding whitespace stripped.  (Greedily consuming the `json` tag
and the whitespace never loses a match, because neither can overlap a
closing fence.) -/

/-- The backtick character. -/
def btick : Char := Char.ofNat 96

/-- The opening-brace character. -/
def lbrace : Char := Char.ofNat 123

/-- The closing-brace character. -/
def rbrace : Char := Char.ofNat 125

/-- The regex class `\s` (ASCII part; the Unicode space characters it
also covers are immaterial to every claim). -/
def isWs (c : Char) : Bool :=
  c == ' ' || c == '\t' || c == '\n' || c == '\r' ||
  c == Char.ofNat 11 || c == Char.ofNat 12

/-- A literal code fence at the head of the list. -/
def startsFence (s : List Char) : Bool :=
  s.take 3 = [btick, btick, btick]

/-- Split at the first closing fence: `some prefixChars` when a fence
occurs, the characters before it. -/
def closeSplit : List Char → Option (List Char)
  | [] => none
  | c :: rest =>
    if startsFence (c :: rest) then some []
    else (closeSplit rest).map (fun l => c :: l)

/-- The capture group of the fence regex: scan for an opening fence
whose body has a closing fence; strip the optional `json` tag (any
case) and surrounding whitespace from the capture. -/
def fenceSearch : List Char → Option (List Char)
  | [] => none
  | c :: rest =>
    if startsFence (c :: rest) then
      let afterOpen := (c :: rest).drop 3
      let afterTag :=
        if (afterOpen.take 4).map Char.toLower = ['j', 's', 'o', 'n'] then
          afterOpen.drop 4
        else afterOpen
      let body := afterTag.dropWhile isWs
      match closeSplit body with
      | some captured => some ((captured.reverse.dropWhile isWs).reverse)
      | none => fenceSearch rest
    else fenceSearch rest

/-- `jsonString.lastIndexOf(c)` as an `Option Nat`. -/
def lastIdxOf (s : List Char) (c : Char) : Option Nat :=
  (s.reverse.findIdx? (fun x => x == c)).map (fun k => s.length - 1 - k)

/-- The complete recovery step of `_callOpenRouter`: fence selection,
then brace-boundary substring extraction (see the section comment).
The result is the string handed to `JSON.parse`. -/
def extractJsonString (content : List Char) : List Char :=
  let jsonString :=
    match fenceSearch content with
    | some body => body
    | none => content
  match jsonString.findIdx? (fun x => x == lbrace), lastIdxOf jsonString rbrace with
  | some startIndex, some endIndex =>
    if startIndex < endIndex then
      (jsonString.drop startIndex).take (endIndex + 1 - startIndex)
    else jsonString
  | _, _ => jsonString

/-! ## The fan-out dispatcher of `recognize` (index.mjs)

`recognize` launches one `_callOpenRouter` per configured model and
reacts to each settlement.  The embedding processes the settlements as
a sequential arrival list (one entry per provider call, in completion
order), which is how the single-threaded event loop interleaves the
handlers.  A non-abort provider failure settles *fulfilled* with
`candidates: []` and an error message (the outer catch of
`_callOpenRouter`); only post-abort rejections reach `recognize`'s
`.catch`, which records
`{ model, error: 'Skipped (Consensus Reached)', candidates: [] }`.
Arrivals after an early fast-mode resolution model the aborted pending
calls.

In fast mode, `resolve` is called with
`details: this._sortResultsByModelOrder(results)` — a stable in-place
sort of the *current* `results` array; the skipped entries recorded by
the later `.catch` handlers are appended to that same array afterwards
(the resolved object aliases it), so the collection the caller ends up
holding is the sorted settled prefix followed by the skipped entries
in completion order. -/

/-- One settled provider call as seen by `recognize`'s `.then`:
candidates (empty for a non-abort failure), optional error, duration. -/
structure Settled where
  candidates : List String
  error : Option String := none
  duration : Nat := 0
  deriving Repr, DecidableEq

/-- The dispatcher's mutable state: the `results` array, the
fast-mode `globalCounts` tally, the `resolved` flag, and the
fast-mode winner once resolved early. -/
structure DispatchState where
  results : List ProviderResult
  globalCounts : List (String × Nat)
  resolved : Bool
  earlyWinner : Option String
  deriving Repr, DecidableEq

/-- The candidate loop of `recognize`'s `.then` handler: for each
truthy candidate, bump `globalCounts`; in fast mode, the first
candidate whose count reaches 2 resolves immediately (the `return`
skips the rest of the loop). -/
def addVotes (fastMode : Bool) :
    List (String × Nat) → List String → List (String × Nat) × Option String
  | counts, [] => (counts, none)
  | counts, cand :: rest =>
    if cand ≠ "" then
      let counts' := bump counts cand
      if fastMode && decide (2 ≤ lookupCount counts' cand) then (counts', some cand)
      else addVotes fastMode counts' rest
    else addVotes fastMode counts rest

/-- Processing of one arrival.  Before resolution: push the result
object, then (if it has candidates) run the vote loop; a fast-mode
consensus sorts the `results` array in place and records the winner.
After resolution: the call was aborted, and its `.catch` pushes a
skipped entry. -/
def dispatchStep (models : List String) (fastMode : Bool)
    (st : DispatchState) (arrival : String × Settled) : DispatchState :=
  if st.resolved then
    { st with
      results := st.results ++
        [{ model := arrival.1, candidates := [],
           error := some "Skipped (Consensus Reached)" }] }
  else
    let resObj : ProviderResult :=
      { model := arrival.1, candidates := arrival.2.candidates,
        error := arrival.2.error, duration := arrival.2.duration }
    let results' := st.results ++ [resObj]
    if arrival.2.candidates.isEmpty then
      { st with results := results' }
    else
      match addVotes fastMode st.globalCounts arrival.2.candidates with
      | (counts', some winner) =>
        { results := _sortResultsByModelOrder models results',
          globalCounts := counts', resolved := true, earlyWinner := some winner }
      | (counts', none) =>
        { st with results := results', globalCounts := counts' }

/-- The dispatcher state after all arrivals have been processed. -/
def runState (models : List String) (fastMode : Bool)
    (arrivals : List (String × Settled)) : DispatchState :=
  arrivals.foldl (dispatchStep models fastMode) ⟨[], [], false, none⟩

/-- The value `recognize` resolves with. -/
structure DispatchOutput where
  final_text : Option String
  details : List ProviderResult
  deriving Repr, DecidableEq

/-- The resolved value of `recognize` for a complete arrival sequence
(one settlement per configured model): the fast-mode winner with the
aliased `results` array, or — when `checkCompletion` sees every call
settled without early consensus — `_vote` over the results with the
array sorted at resolve time. -/
def runDispatch (models : List String) (fastMode : Bool)
    (arrivals : List (String × Settled)) : DispatchOutput :=
  let st := runState models fastMode arrivals
  match st.earlyWinner with
  | some winner => ⟨some winner, st.results⟩
  | none => ⟨_vote models st.results, _sortResultsByModelOrder models st.results⟩

/-! ## Spec-side comparison definitions -/

/-- The flattened candidate multiset over a collection of provider
results (spec §4.4 step 1), used to state the voting claims. -/
def flatCands (results : List ProviderResult) : List String :=
  (results.map (fun r => r.candidates)).flatten

/-- A candidate string as the spec's data-model invariant describes
it: non-empty and drawn from the alphabet {A-Z, 0-9}. -/
def validCandidate (c : String) : Prop :=
  c ≠ "" ∧ c.data.all isUpperAlnum = true

instance (c : String) : Decidable (validCandidate c) := by
  unfold validCandidate
  infer_instance

/-- The spec's tie-break walk (§4.4 step 5), written from its words:
walk providers in their configured order, look up each provider's
result, string the providers' candidate lists together in that nested
order, and take the first candidate that is one of the tied top
strings.  Compared against the source's `tieBreakLoop`. -/
def specTieBreakWalk (models : List String) (results : List ProviderResult)
    (top : List String) : Option String :=
  ((models.filterMap (fun m => results.find? (fun r => r.model == m))).flatMap
      (fun r => r.candidates)).find? (fun c => top.contains c)

/-- The string the recovery step selects before looking for brace
boundaries: the code-fence body when a fence match exists, the raw
content otherwise. -/
def selectedString (content : List Char) : List Char :=
  match fenceSearch content with
  | some body => body
  | none => content

/-- The fast-mode threshold invariant of the dispatcher state: before
early resolution every candidate's running global tally is at most 1,
and early resolution is recorded exactly when the winner's tally has
just reached 2. -/
def FastInv (st : DispatchState) : Prop :=
  (st.earlyWinner = none →
    st.resolved = false ∧ ∀ s, lookupCount st.globalCounts s ≤ 1) ∧
  (∀ c, st.earlyWinner = some c →
    st.resolved = true ∧ lookupCount st.globalCounts c = 2)

/-! ## Tally lemmas: `bump`, `countsOf`, `lookupCount` -/

theorem lookupCount_nil (t : String) : lookupCount [] t = 0 := rfl

theorem lookupCount_cons (k : String) (v : Nat) (rest : List (String × Nat))
    (t : String) :
    lookupCount ((k, v) :: rest) t = if k = t then v else lookupCount rest t := by
  by_cases hk : k = t
  · simp [lookupCount, List.find?_cons_of_pos, hk]
  · rw [if_neg hk]
    unfold lookupCount
    rw [List.find?_cons_of_neg]
    simpa using hk

theorem lookupCount_bump_self (l : List (String × Nat)) (s : String) :
    lookupCount (bump l s) s = lookupCount l s + 1 := by
  induction l with
  | nil => simp [bump, lookupCount_cons, lookupCount_nil]
  | cons p rest ih =>
    obtain ⟨k, v⟩ := p
    by_cases hk : k = s
    · subst hk
      simp [bump, lookupCount_cons]
    · simp only [bump, if_neg hk]
      rw [lookupCount_cons, lookupCount_cons, if_neg hk, if_neg hk, ih]

theorem lookupCount_bump_ne (l : List (String × Nat)) (s t : String) (h : t ≠ s) :
    lookupCount (bump l s) t = lookupCount l t := by
  induction l with
  | nil =>
    have hst : s ≠ t := fun hh => h hh.symm
    simp [bump, lookupCount_cons, lookupCount_nil, hst]
  | cons p rest ih =>
    obtain ⟨k, v⟩ := p
    by_cases hk : k = s
    · subst hk
      have hkt : k ≠ t := fun hh => h hh.symm
      simp [bump, lookupCount_cons, if_neg hkt]
    · simp only [bump, if_neg hk]
      rw [lookupCount_cons, lookupCount_cons, ih]

theorem mem_keys_bump (l : List (String × Nat)) (s t : String) :
    t ∈ (bump l s).map Prod.fst ↔ t ∈ l.map Prod.fst ∨ t = s := by
  induction l with
  | nil => simp [bump]
  | cons p rest ih =>
    obtain ⟨k, v⟩ := p
    by_cases hk : k = s
    · subst hk
      constructor
      · intro h
        simpa [bump] using Or.inl (by simpa [bump] using h)
      · intro h
        rcases h with h | h
        · simpa [bump] using (by simpa using h)
        · subst h; simp [bump]
    · simp only [bump, if_neg hk, List.map_cons, List.mem_cons]
      rw [ih]
      tauto

theorem nodup_keys_bump (l : List (String × Nat)) (s : String)
    (h : (l.map Prod.fst).Nodup) : ((bump l s).map Prod.fst).Nodup := by
  induction l with
  | nil => simp [bump]
  | cons p rest ih =>
    obtain ⟨k, v⟩ := p
    simp only [List.map_cons, List.nodup_cons] at h
    by_cases hk : k = s
    · subst hk
      simpa [bump, List.nodup_cons] using h
    · simp only [bump, if_neg hk, List.map_cons, List.nodup_cons]
      refine ⟨?_, ih h.2⟩
      intro hmem
      rcases (mem_keys_bump rest s k).mp hmem with hmem | hmem
      · exact h.1 hmem
      · exact hk hmem

theorem lookupCount_eq_of_mem (l : List (String × Nat)) (k : String) (v : Nat)
    (hnd : (l.map Prod.fst).Nodup) (hmem : (k, v) ∈ l) : lookupCount l k = v := by
  induction l with
  | nil => simp at hmem
  | cons p rest ih =>
    obtain ⟨k', v'⟩ := p
    simp only [List.map_cons, List.nodup_cons] at hnd
    rcases List.mem_cons.mp hmem with h | h
    · obtain ⟨rfl, rfl⟩ : k = k' ∧ v = v' := by simpa using h
      simp [lookupCount_cons]
    · have hk : k' ≠ k := by
        intro hkk
        subst hkk
        exact hnd.1 (by simpa using List.mem_map_of_mem Prod.fst h)
      rw [lookupCount_cons, if_neg hk]
      exact ih hnd.2 h

theorem mem_of_lookupCount_pos (l : List (String × Nat)) (k : String)
    (h : 0 < lookupCount l k) : k ∈ l.map Prod.fst := by
  unfold lookupCount at h
  split at h
  · next p hp =>
    have := List.find?_some hp
    have hmem := List.mem_of_find?_eq_some hp
    have : p.1 = k := by simpa using this
    subst this
    exact List.mem_map_of_mem Prod.fst hmem
  · omega

theorem lookupCount_foldl_bump (cands : List String) (acc : List (String × Nat))
    (s : String) :
    lookupCount (cands.foldl bump acc) s = lookupCount acc s + cands.count s := by
  induction cands generalizing acc with
  | nil => simp
  | cons c rest ih =>
    simp only [List.foldl_cons, ih]
    by_cases hc : c = s
    · subst hc
      rw [lookupCount_bump_self]
      simp [List.count_cons]
      omega
    · rw [lookupCount_bump_ne _ _ _ (Ne.symm hc)]
      simp [List.count_cons, Ne.symm hc]

theorem mem_keys_foldl_bump (cands : List String) (acc : List (String × Nat))
    (t : String) :
    t ∈ ((cands.foldl bump acc).map Prod.fst) ↔ t ∈ acc.map Prod.fst ∨ t ∈ cands := by
  induction cands generalizing acc with
  | nil => simp
  | cons c rest ih =>
    simp only [List.foldl_cons, ih, mem_keys_bump, List.mem_cons]
    tauto

theorem nodup_keys_foldl_bump (cands : List String) (acc : List (String × Nat))
    (h : (acc.map Prod.fst).Nodup) : (((cands.foldl bump acc)).map Prod.fst).Nodup := by
  induction cands generalizing acc with
  | nil => simpa
  | cons c rest ih =>
    exact ih _ (nodup_keys_bump acc c h)

theorem countsOf_eq_foldl (results : List ProviderResult) :
    countsOf results = (flatCands results).foldl bump [] := by
  unfold countsOf flatCands
  rw [List.foldl_flatten]
  rw [List.foldl_map]

theorem lookupCount_countsOf (results : List ProviderResult) (s : String) :
    lookupCount (countsOf results) s = (flatCands results).count s := by
  rw [countsOf_eq_foldl, lookupCount_foldl_bump]
  simp [lookupCount]

theorem mem_keys_countsOf (results : List ProviderResult) (t : String) :
    t ∈ (countsOf results).map Prod.fst ↔ t ∈ flatCands results := by
  rw [countsOf_eq_foldl, mem_keys_foldl_bump]
  simp

theorem nodup_keys_countsOf (results : List ProviderResult) :
    ((countsOf results).map Prod.fst).Nodup := by
  rw [countsOf_eq_foldl]
  exact nodup_keys_foldl_bump _ _ (by simp)

theorem pair_mem_countsOf (results : List ProviderResult) (k : String) (v : Nat)
    (h : (k, v) ∈ countsOf results) : v = (flatCands results).count k := by
  rw [← lookupCount_countsOf]
  exact (lookupCount_eq_of_mem _ _ _ (nodup_keys_countsOf results) h).symm

/-! ## Sorting lemmas -/

instance : IsTotal (String × Nat) (fun a b => b.2 ≤ a.2) :=
  ⟨fun a b => Nat.le_total b.2 a.2⟩

instance : IsTrans (String × Nat) (fun a b => b.2 ≤ a.2) :=
  ⟨fun _ _ _ hab hbc => Nat.le_trans hbc hab⟩

theorem sortByCountDesc_perm (l : List (String × Nat)) :
    List.Perm (sortByCountDesc l) l :=
  List.perm_insertionSort _ l

theorem sortByCountDesc_sorted (l : List (String × Nat)) :
    (sortByCountDesc l).Sorted (fun a b => b.2 ≤ a.2) :=
  List.sorted_insertionSort _ l

theorem sortByCountDesc_head_max (l : List (String × Nat)) (top : String × Nat)
    (rest : List (String × Nat)) (hs : sortByCountDesc l = top :: rest) :
    ∀ p ∈ l, p.2 ≤ top.2 := by
  intro p hp
  have hmem : p ∈ top :: rest := hs ▸ (sortByCountDesc_perm l).symm.subset hp
  rcases List.mem_cons.mp hmem with h | h
  · subst h; exact Nat.le_refl _
  · have hsorted := sortByCountDesc_sorted l
    rw [hs] at hsorted
    exact (List.pairwise_cons.mp hsorted).1 p h

/-! ## Structural lemmas about `_vote` -/

theorem mem_of_head?_eq_some {α : Type} {l : List α} {a : α}
    (h : l.head? = some a) : a ∈ l := by
  cases l with
  | nil => simp at h
  | cons x xs =>
    simp only [List.head?_cons, Option.some.injEq] at h
    exact h ▸ List.mem_cons_self x xs

theorem tieBreakLoop_mem_top (models : List String) (results : List ProviderResult)
    (top : List String) (c : String) (h : tieBreakLoop models results top = some c) :
    c ∈ top := by
  induction models with
  | nil => simp [tieBreakLoop] at h
  | cons m ms ih =>
    unfold tieBreakLoop at h
    rcases hf : results.find? (fun r => r.model == m) with _ | r
    · rw [hf] at h
      exact ih h
    · rw [hf] at h
      simp only at h
      rcases hc : r.candidates.find? (fun cand => top.contains cand) with _ | c'
      · rw [hc] at h
        exact ih h
      · rw [hc] at h
        have hpc := List.find?_some hc
        obtain rfl : c' = c := by simpa using h
        simpa using hpc

/-- The top-candidate list of `_vote` for a given tally head. -/
theorem topCandidates_subset_keys (s : List (String × Nat)) (maxVotes : Nat)
    (d : String) (hd : d ∈ (s.filter (fun p => p.2 == maxVotes)).map Prod.fst) :
    d ∈ s.map Prod.fst := by
  obtain ⟨p, hp, rfl⟩ := List.mem_map.mp hd
  exact List.mem_map_of_mem Prod.fst (List.mem_of_mem_filter hp)

theorem _vote_mem (models : List String) (results : List ProviderResult)
    (d : String) (h : _vote models results = some d) : d ∈ flatCands results := by
  unfold _vote at h
  simp only at h
  rcases hs : sortByCountDesc (countsOf results) with _ | ⟨top, rest⟩
  · rw [hs] at h; simp at h
  · rw [hs] at h
    simp only at h
    have hmemtop : d ∈ ((top :: rest).filter (fun p => p.2 == top.2)).map Prod.fst := by
      by_cases hlen :
          (((top :: rest).filter (fun p => p.2 == top.2)).map Prod.fst).length == 1
      · rw [if_pos hlen] at h
        exact mem_of_head?_eq_some h
      · rw [if_neg hlen] at h
        rcases ht : tieBreakLoop models results
            (((top :: rest).filter (fun p => p.2 == top.2)).map Prod.fst) with _ | c
        · rw [ht] at h
          exact mem_of_head?_eq_some h
        · rw [ht] at h
          obtain rfl : c = d := by simpa using h
          exact tieBreakLoop_mem_top _ _ _ _ ht
    have hkeys : d ∈ (sortByCountDesc (countsOf results)).map Prod.fst := by
      rw [hs]
      exact topCandidates_subset_keys _ _ _ hmemtop
    have : d ∈ (countsOf results).map Prod.fst := by
      obtain ⟨p, hp, rfl⟩ := List.mem_map.mp hkeys
      exact List.mem_map_of_mem Prod.fst ((sortByCountDesc_perm _).subset hp)
    exact (mem_keys_countsOf results d).mp this

theorem _vote_isSome (models : List String) (results : List ProviderResult)
    (h : flatCands results ≠ []) : ∃ d, _vote models results = some d := by
  obtain ⟨x, hx⟩ := List.exists_mem_of_ne_nil _ h
  have hxk : x ∈ (countsOf results).map Prod.fst := (mem_keys_countsOf results x).mpr hx
  have hcn : countsOf results ≠ [] := by
    intro hc
    rw [hc] at hxk
    simp at hxk
  have hsn : sortByCountDesc (countsOf results) ≠ [] := by
    intro hc
    exact hcn ((sortByCountDesc_perm (countsOf results)).symm.trans (hc ▸ List.Perm.refl _)).eq_nil
  rcases hs : sortByCountDesc (countsOf results) with _ | ⟨top, rest⟩
  · exact absurd hs hsn
  · have htopmem : top.1 ∈ ((top :: rest).filter (fun p => p.2 == top.2)).map Prod.fst := by
      refine List.mem_map_of_mem Prod.fst (List.mem_filter.mpr ⟨List.mem_cons_self _ _, ?_⟩)
      simp
    have hne : ((top :: rest).filter (fun p => p.2 == top.2)).map Prod.fst ≠ [] := by
      intro hc
      rw [hc] at htopmem
      simp at htopmem
    obtain ⟨t0, ts, hts⟩ := List.exists_cons_of_ne_nil hne
    unfold _vote
    simp only
    rw [hs]
    simp only
    by_cases hlen :
        (((top :: rest).filter (fun p => p.2 == top.2)).map Prod.fst).length == 1
    · rw [if_pos hlen, hts]
      exact ⟨t0, rfl⟩
    · rw [if_neg hlen]
      rcases ht : tieBreakLoop models results
          (((top :: rest).filter (fun p => p.2 == top.2)).map Prod.fst) with _ | c
      · rw [ht]
        simp only
        rw [hts]
        exact ⟨t0, rfl⟩
      · rw [ht]
        exact ⟨c, rfl⟩

theorem countP_eq_one_of_nodup {α : Type} [DecidableEq α] (l : List α) (a : α)
    (hnd : l.Nodup) (ha : a ∈ l) : l.countP (fun x => decide (x = a)) = 1 := by
  induction l with
  | nil => simp at ha
  | cons b t ih =>
    simp only [List.nodup_cons] at hnd
    rcases List.mem_cons.mp ha with h | ha'
    · subst h
      rw [List.countP_cons]
      have hz : t.countP (fun x => decide (x = a)) = 0 := by
        rw [List.countP_eq_zero]
        intro x hx
        simp only [decide_eq_true_eq]
        rintro rfl
        exact hnd.1 hx
      simp [hz]
    · rw [List.countP_cons]
      have hba : ¬(b = a) := fun h => by subst h; exact hnd.1 ha'
      simp [ih hnd.2 ha', hba]

theorem _vote_plurality (models : List String) (results : List ProviderResult)
    (x : String) (hx : x ∈ flatCands results)
    (hmax : ∀ y ∈ flatCands results, y ≠ x →
      (flatCands results).count y < (flatCands results).count x) :
    _vote models results = some x := by
  set cx := (flatCands results).count x with hcx
  have hxpair : (x, cx) ∈ countsOf results := by
    have hxk : x ∈ (countsOf results).map Prod.fst := (mem_keys_countsOf results x).mpr hx
    obtain ⟨p, hp, hfst⟩ := List.mem_map.mp hxk
    have hv := pair_mem_countsOf results p.1 p.2 (by simpa using hp)
    have : p = (x, cx) := by
      obtain ⟨p1, p2⟩ := p
      simp only at hfst hv
      subst hfst
      rw [hcx, ← hv]
    exact this ▸ hp
  have hpair_count : ∀ p ∈ countsOf results, p.2 = (flatCands results).count p.1 :=
    fun p hp => pair_mem_countsOf results p.1 p.2 (by simpa using hp)
  have hkey_flat : ∀ p ∈ countsOf results, p.1 ∈ flatCands results := by
    intro p hp
    exact (mem_keys_countsOf results p.1).mp (List.mem_map_of_mem Prod.fst hp)
  have hsn : sortByCountDesc (countsOf results) ≠ [] := by
    intro hc
    have := (sortByCountDesc_perm (countsOf results)).symm
    rw [hc] at this
    rw [this.eq_nil] at hxpair
    simp at hxpair
  rcases hs : sortByCountDesc (countsOf results) with _ | ⟨top, rest⟩
  · exact absurd hs hsn
  · have htopC : top ∈ countsOf results :=
      (sortByCountDesc_perm (countsOf results)).subset (hs ▸ List.mem_cons_self top rest)
    have htopv : top.2 = (flatCands results).count top.1 := hpair_count top htopC
    have htopge : cx ≤ top.2 := sortByCountDesc_head_max _ top rest hs (x, cx) hxpair
    have htopx : top.1 = x := by
      by_contra hne
      have hlt := hmax top.1 (hkey_flat top htopC) hne
      rw [← htopv] at hlt
      omega
    have htopcx : top.2 = cx := by rw [htopv, htopx, ← hcx]
    -- every pair surviving the max-votes filter is exactly (x, cx)
    have hfilter_eq : ∀ p ∈ top :: rest, p.2 = top.2 → p = (x, cx) := by
      intro p hp hv
      have hpC : p ∈ countsOf results :=
        (sortByCountDesc_perm (countsOf results)).subset (hs ▸ hp)
      have hpv := hpair_count p hpC
      have hp1 : p.1 = x := by
        by_contra hne
        have hlt := hmax p.1 (hkey_flat p hpC) hne
        rw [← hpv, hv, htopcx] at hlt
        omega
      obtain ⟨p1, p2⟩ := p
      simp only at hp1 hv
      rw [hp1, hv, htopcx]
    have hnodupC : (countsOf results).Nodup := (nodup_keys_countsOf results).of_map _
    have hnodupS : (top :: rest).Nodup := by
      have := hnodupC.perm (sortByCountDesc_perm (countsOf results)).symm
      rwa [hs] at this
    have hcount1 : (top :: rest).countP (fun p => decide (p = (x, cx))) = 1 :=
      countP_eq_one_of_nodup _ _ hnodupS
        (hs ▸ (sortByCountDesc_perm (countsOf results)).symm.subset hxpair)
    have hfl : ((top :: rest).filter (fun p => p.2 == top.2)).length = 1 := by
      rw [← List.countP_eq_length_filter]
      have hcongr : ∀ p ∈ top :: rest,
          ((p.2 == top.2) = true ↔ (decide (p = (x, cx))) = true) := by
        intro p hp
        by_cases hiff : p = (x, cx)
        · subst hiff
          simp [htopcx]
        · have hne2 : ¬ p.2 = top.2 := fun hv => hiff (hfilter_eq p hp hv)
          simp [hne2, hiff]
      rw [List.countP_congr hcongr]
      exact hcount1
    obtain ⟨q, hq⟩ := List.length_eq_one.mp hfl
    have hqx : q = (x, cx) := by
      have hqmem : q ∈ (top :: rest).filter (fun p => p.2 == top.2) := by
        rw [hq]; exact List.mem_cons_self q []
      have hqS := List.mem_of_mem_filter hqmem
      have hqv : q.2 = top.2 := by
        have := List.of_mem_filter hqmem
        simpa using this
      exact hfilter_eq q hqS hqv
    unfold _vote
    simp only
    rw [hs]
    simp only
    rw [hq, hqx]
    simp

theorem _vote_of_flat_nil (models : List String) (results : List ProviderResult)
    (h : flatCands results = []) : _vote models results = none := by
  have hc : countsOf results = [] := by
    rw [countsOf_eq_foldl, h]
    rfl
  unfold _vote
  simp only
  rw [hc]
  rfl

/-- The source's nested tie-break loops compute exactly the spec's
flattened walk. -/
theorem tieBreakLoop_eq_specWalk (models : List String)
    (results : List ProviderResult) (top : List String) :
    tieBreakLoop models results top = specTieBreakWalk models results top := by
  induction models with
  | nil => rfl
  | cons m ms ih =>
    unfold tieBreakLoop specTieBreakWalk
    rcases hf : results.find? (fun r => r.model == m) with _ | r
    · rw [hf]
      simp only
      rw [List.filterMap_cons_none (by exact hf)]
      exact ih
    · rw [hf]
      simp only
      rw [List.filterMap_cons_some (by exact hf)]
      simp only [List.flatMap_cons, List.find?_append]
      rcases hc : r.candidates.find? (fun cand => top.contains cand) with _ | c'
      · simp only [Option.none_or]
        exact ih
      · simp

/-- With three providers each contributing a single guess and all
three guesses distinct (a three-way tie at one vote each), `_vote`
returns the first configured provider's guess, whatever the errors and
durations recorded alongside. -/
theorem _vote_three_way_tie (m1 m2 m3 a b c : String)
    (e1 e2 e3 : Option String) (d1 d2 d3 : Nat)
    (hab : a ≠ b) (hac : a ≠ c) (hbc : b ≠ c) :
    _vote [m1, m2, m3]
      [⟨m1, [a], e1, d1⟩, ⟨m2, [b], e2, d2⟩, ⟨m3, [c], e3, d3⟩] = some a := by
  have hba : ¬(b = a) := fun h => hab h.symm
  have hca : ¬(c = a) := fun h => hac h.symm
  have hcb : ¬(c = b) := fun h => hbc h.symm
  have hcounts : countsOf
      [⟨m1, [a], e1, d1⟩, ⟨m2, [b], e2, d2⟩, ⟨m3, [c], e3, d3⟩]
      = [(a, 1), (b, 1), (c, 1)] := by
    simp [countsOf, bump, hab, hac, hbc, hba, hca, hcb]
  have hsort : sortByCountDesc [(a, 1), (b, 1), (c, 1)]
      = [(a, 1), (b, 1), (c, 1)] := by
    simp [sortByCountDesc, List.insertionSort, List.orderedInsert]
  unfold _vote
  simp only
  rw [hcounts, hsort]
  simp only [List.filter, List.map]
  norm_num
  rw [tieBreakLoop]
  simp

end VllmOcr


namespace VllmOcr

/-! ## Normalizer lemmas (`_postProcess`) -/

theorem toUpper_of_isUpperAlnum (c : Char) (h : isUpperAlnum c = true) :
    c.toUpper = c := by
  unfold isUpperAlnum at h
  simp only [Bool.or_eq_true, Bool.and_eq_true, decide_eq_true_eq] at h
  rw [Char.toUpper]
  have hcond : ¬(c.toNat ≥ 97 ∧ c.toNat ≤ 122) := by omega
  simp [hcond]

theorem _postProcess_all_upperAlnum (t : Option String) :
    (_postProcess t).data.all isUpperAlnum = true := by
  match t with
  | none => rfl
  | some s =>
    unfold _postProcess
    simp only
    by_cases hs : s = ""
    · simp [hs]
    · rw [if_neg hs]
      simp only [List.all_eq_true]
      intro c hc
      exact List.of_mem_filter hc

theorem _postProcess_of_upperAlnum (u : String)
    (hall : ∀ c ∈ u.data, isUpperAlnum c = true) : _postProcess (some u) = u := by
  by_cases hu : u = ""
  · rw [hu]
    rfl
  · unfold _postProcess
    simp only
    rw [if_neg hu]
    have hmap : u.data.map Char.toUpper = u.data := by
      have h2 := List.map_congr_left (fun c hc => toUpper_of_isUpperAlnum c (hall c hc))
      simpa using h2
    rw [hmap, List.filter_eq_self.mpr hall]

theorem _postProcess_idem (t : Option String) :
    _postProcess (some (_postProcess t)) = _postProcess t :=
  _postProcess_of_upperAlnum _ (by
    have h := _postProcess_all_upperAlnum t
    rwa [List.all_eq_true] at h)

end VllmOcr

namespace VllmOcr

/-! ## Candidate-extraction lemmas -/

theorem extractCandidates_valid (p : ParsedResponse) (c : String)
    (hc : c ∈ extractCandidates p) : validCandidate c := by
  unfold extractCandidates at hc
  rcases hres : p.results with _ | arr
  · rw [hres] at hc
    simp only at hc
    rcases htext : p.text with _ | t
    · rw [htext] at hc
      simp at hc
    · rw [htext] at hc
      simp only at hc
      by_cases ht : t = ""
      · rw [ht] at hc
        simp at hc
      · rw [if_pos (by simpa using ht)] at hc
        by_cases hp : _postProcess (some t) = ""
        · rw [if_neg] at hc
          · simp at hc
          · simpa using hp
        · rw [if_pos (by simpa using hp)] at hc
          have : c = _postProcess (some t) := by simpa using hc
          subst this
          exact ⟨hp, _postProcess_all_upperAlnum _⟩
  · rw [hres] at hc
    simp only at hc
    have hne : ¬(c = "") := by
      have := List.of_mem_filter hc
      simpa using this
    have hmem := List.mem_of_mem_filter hc
    obtain ⟨t, _, rfl⟩ := List.mem_map.mp hmem
    exact ⟨hne, _postProcess_all_upperAlnum _⟩

theorem mem_flatCands (results : List ProviderResult) (k : String)
    (h : k ∈ flatCands results) :
    ∃ r ∈ results, k ∈ r.candidates := by
  unfold flatCands at h
  obtain ⟨l, hl, hk⟩ := List.mem_flatten.mp h
  obtain ⟨r, hr, rfl⟩ := List.mem_map.mp hl
  exact ⟨r, hr, hk⟩

theorem countsOf_keys_valid (results : List ProviderResult)
    (h : ∀ r ∈ results, ∀ c ∈ r.candidates, validCandidate c) :
    ∀ k ∈ (countsOf results).map Prod.fst, validCandidate k := by
  intro k hk
  obtain ⟨r, hr, hkr⟩ := mem_flatCands results k ((mem_keys_countsOf results k).mp hk)
  exact h r hr k hkr

/-! ## Dispatcher lemmas -/

theorem addVotes_keys (fastMode : Bool) (cands : List String)
    (counts : List (String × Nat)) (t : String)
    (ht : t ∈ ((addVotes fastMode counts cands).1).map Prod.fst) :
    t ∈ counts.map Prod.fst ∨ t ∈ cands := by
  induction cands generalizing counts with
  | nil => exact Or.inl (by simpa [addVotes] using ht)
  | cons cand rest ih =>
    unfold addVotes at ht
    by_cases hcand : cand = ""
    · rw [if_neg (by simpa using hcand)] at ht
      rcases ih _ ht with h | h
      · exact Or.inl h
      · exact Or.inr (List.mem_cons_of_mem _ h)
    · rw [if_pos (by simpa using hcand)] at ht
      by_cases htr : fastMode && decide (2 ≤ lookupCount (bump counts cand) cand)
      · rw [if_pos htr] at ht
        simp only at ht
        rcases (mem_keys_bump counts cand t).mp ht with h | h
        · exact Or.inl h
        · exact Or.inr (h ▸ List.mem_cons_self _ _)
      · rw [if_neg htr] at ht
        rcases ih _ ht with h | h
        · rcases (mem_keys_bump counts cand t).mp h with h2 | h2
          · exact Or.inl h2
          · exact Or.inr (h2 ▸ List.mem_cons_self _ _)
        · exact Or.inr (List.mem_cons_of_mem _ h)

theorem dispatchStep_counts_keys (models : List String) (fastMode : Bool)
    (st : DispatchState) (a : String × Settled) (t : String)
    (ht : t ∈ ((dispatchStep models fastMode st a).globalCounts).map Prod.fst) :
    t ∈ st.globalCounts.map Prod.fst ∨ t ∈ a.2.candidates := by
  unfold dispatchStep at ht
  by_cases hres : st.resolved
  · rw [if_pos hres] at ht
    exact Or.inl ht
  · rw [if_neg hres] at ht
    by_cases hemp : a.2.candidates.isEmpty
    · rw [if_pos hemp] at ht
      exact Or.inl ht
    · rw [if_neg hemp] at ht
      rcases hv : addVotes fastMode st.globalCounts a.2.candidates with ⟨counts', w⟩
      rw [hv] at ht
      cases w with
      | none =>
        simp only at ht
        exact addVotes_keys fastMode _ _ t (by rw [hv]; exact ht)
      | some winner =>
        simp only at ht
        exact addVotes_keys fastMode _ _ t (by rw [hv]; exact ht)

theorem foldl_dispatch_counts_keys (models : List String) (fastMode : Bool)
    (arrivals : List (String × Settled)) :
    ∀ (st : DispatchState) (t : String),
      t ∈ ((arrivals.foldl (dispatchStep models fastMode) st).globalCounts).map Prod.fst →
      t ∈ st.globalCounts.map Prod.fst ∨ ∃ a ∈ arrivals, t ∈ a.2.candidates := by
  induction arrivals with
  | nil =>
    intro st t hst
    exact Or.inl hst
  | cons a rest ih =>
    intro st t hst
    rcases ih (dispatchStep models fastMode st a) t hst with h2 | h2
    · rcases dispatchStep_counts_keys models fastMode st a t h2 with h3 | h3
      · exact Or.inl h3
      · exact Or.inr ⟨a, List.mem_cons_self _ _, h3⟩
    · obtain ⟨b, hb, hbt⟩ := h2
      exact Or.inr ⟨b, List.mem_cons_of_mem _ hb, hbt⟩

theorem runState_counts_keys (models : List String) (fastMode : Bool)
    (arrivals : List (String × Settled)) (t : String)
    (ht : t ∈ ((runState models fastMode arrivals).globalCounts).map Prod.fst) :
    ∃ a ∈ arrivals, t ∈ a.2.candidates := by
  rcases foldl_dispatch_counts_keys models fastMode arrivals ⟨[], [], false, none⟩ t ht
      with h2 | h2
  · simp at h2
  · exact h2

end VllmOcr

namespace VllmOcr

/-! ## Dispatcher results bookkeeping -/

theorem _sortResultsByModelOrder_perm (models : List String)
    (rs : List ProviderResult) :
    List.Perm (_sortResultsByModelOrder models rs) rs :=
  List.perm_insertionSort _ rs

theorem dispatchStep_results_models (models : List String) (fm : Bool)
    (st : DispatchState) (a : String × Settled) :
    List.Perm ((dispatchStep models fm st a).results.map (fun r => r.model))
      (st.results.map (fun r => r.model) ++ [a.1]) := by
  unfold dispatchStep
  by_cases hres : st.resolved
  · rw [if_pos hres]
    simp
  · rw [if_neg hres]
    by_cases hemp : a.2.candidates.isEmpty
    · rw [if_pos hemp]
      simp
    · rw [if_neg hemp]
      rcases hv : addVotes fm st.globalCounts a.2.candidates with ⟨counts', w⟩
      cases w with
      | none => simp
      | some winner =>
        simp only
        refine List.Perm.trans (List.Perm.map _ (_sortResultsByModelOrder_perm _ _)) ?_
        simp

theorem foldl_dispatch_results_models (models : List String) (fm : Bool)
    (arrivals : List (String × Settled)) :
    ∀ st : DispatchState,
      List.Perm ((arrivals.foldl (dispatchStep models fm) st).results.map (fun r => r.model))
        (st.results.map (fun r => r.model) ++ arrivals.map Prod.fst) := by
  induction arrivals with
  | nil =>
    intro st
    simp
  | cons a rest ih =>
    intro st
    refine List.Perm.trans (ih (dispatchStep models fm st a)) ?_
    have h1 := (dispatchStep_results_models models fm st a).append_right (rest.map Prod.fst)
    refine List.Perm.trans h1 ?_
    have h2 : (st.results.map (fun r => r.model) ++ [a.1]) ++ rest.map Prod.fst
        = st.results.map (fun r => r.model) ++ (a :: rest).map Prod.fst := by simp
    exact h2 ▸ List.Perm.refl _

theorem runState_results_models (models : List String) (fm : Bool)
    (arrivals : List (String × Settled)) :
    List.Perm ((runState models fm arrivals).results.map (fun r => r.model))
      (arrivals.map Prod.fst) := by
  have h := foldl_dispatch_results_models models fm arrivals ⟨[], [], false, none⟩
  simpa using h

end VllmOcr

namespace VllmOcr

/-! ## Exhaustive mode never resolves early -/

theorem addVotes_false (cands : List String) :
    ∀ counts, (addVotes false counts cands).2 = none := by
  induction cands with
  | nil => intro counts; rfl
  | cons cand rest ih =>
    intro counts
    unfold addVotes
    by_cases hcand : cand = ""
    · rw [if_neg (by simpa using hcand)]
      exact ih counts
    · rw [if_pos (by simpa using hcand)]
      rw [if_neg (by simp)]
      exact ih _

theorem foldl_false_unresolved (models : List String)
    (arrivals : List (String × Settled)) :
    ∀ st : DispatchState, st.resolved = false → st.earlyWinner = none →
      (arrivals.foldl (dispatchStep models false) st).resolved = false ∧
      (arrivals.foldl (dispatchStep models false) st).earlyWinner = none := by
  induction arrivals with
  | nil =>
    intro st h1 h2
    exact ⟨h1, h2⟩
  | cons a rest ih =>
    intro st h1 h2
    refine ih (dispatchStep models false st a) ?_ ?_
    all_goals
      unfold dispatchStep
      rw [if_neg (by simp [h1])]
      by_cases hemp : a.2.candidates.isEmpty
    · rw [if_pos hemp]; exact h1
    · rw [if_neg hemp]
      rcases hv : addVotes false st.globalCounts a.2.candidates with ⟨counts', w⟩
      have hw : w = none := by
        have := addVotes_false a.2.candidates st.globalCounts
        rw [hv] at this
        exact this
      subst hw
      exact h1
    · rw [if_pos hemp]; exact h2
    · rw [if_neg hemp]
      rcases hv : addVotes false st.globalCounts a.2.candidates with ⟨counts', w⟩
      have hw : w = none := by
        have := addVotes_false a.2.candidates st.globalCounts
        rw [hv] at this
        exact this
      subst hw
      exact h2

theorem runState_false (models : List String) (arrivals : List (String × Settled)) :
    (runState models false arrivals).resolved = false ∧
    (runState models false arrivals).earlyWinner = none :=
  foldl_false_unresolved models arrivals ⟨[], [], false, none⟩ rfl rfl

/-! ## All-failed arrivals leave every candidate list empty -/

theorem foldl_empty_cands (models : List String) (fm : Bool)
    (arrivals : List (String × Settled))
    (h : ∀ a ∈ arrivals, a.2.candidates = []) :
    ∀ st : DispatchState, st.resolved = false → st.earlyWinner = none →
      (∀ r ∈ st.results, r.candidates = []) →
      (arrivals.foldl (dispatchStep models fm) st).earlyWinner = none ∧
      (∀ r ∈ (arrivals.foldl (dispatchStep models fm) st).results,
        r.candidates = []) := by
  induction arrivals with
  | nil =>
    intro st _ h2 h3
    exact ⟨h2, h3⟩
  | cons a rest ih =>
    intro st h1 h2 h3
    have ha : a.2.candidates = [] := h (a) (List.mem_cons_self _ _)
    have hstep : dispatchStep models fm st a =
        { st with results := st.results ++
            [{ model := a.1, candidates := a.2.candidates,
               error := a.2.error, duration := a.2.duration }] } := by
      unfold dispatchStep
      rw [if_neg (by simp [h1])]
      rw [if_pos (by simp [ha])]
    refine ih (fun b hb => h b (List.mem_cons_of_mem _ hb))
      (dispatchStep models fm st a) ?_ ?_ ?_
    · rw [hstep]; exact h1
    · rw [hstep]; exact h2
    · rw [hstep]
      intro r hr
      simp only [List.mem_append] at hr
      rcases hr with hr | hr
      · exact h3 r hr
      · rw [List.mem_singleton.mp hr]
        exact ha

theorem flatCands_of_all_nil (results : List ProviderResult)
    (h : ∀ r ∈ results, r.candidates = []) : flatCands results = [] := by
  unfold flatCands
  rw [List.flatten_eq_nil_iff]
  intro l hl
  obtain ⟨r, hr, rfl⟩ := List.mem_map.mp hl
  exact h r hr

theorem runDispatch_all_failed (models : List String) (fm : Bool)
    (arrivals : List (String × Settled))
    (h : ∀ a ∈ arrivals, a.2.candidates = []) :
    (runDispatch models fm arrivals).final_text = none := by
  have hfold := foldl_empty_cands models fm arrivals h ⟨[], [], false, none⟩
    rfl rfl (by simp)
  unfold runDispatch runState
  unfold runState at hfold
  simp only
  rw [hfold.1]
  simp only
  exact _vote_of_flat_nil models _ (flatCands_of_all_nil _ hfold.2)

end VllmOcr

namespace VllmOcr

/-! ## Fast-mode threshold invariant -/

theorem addVotes_true_bound (cands : List String) :
    ∀ counts : List (String × Nat), (∀ s, lookupCount counts s ≤ 1) →
      ((addVotes true counts cands).2 = none →
        ∀ s, lookupCount (addVotes true counts cands).1 s ≤ 1) ∧
      (∀ c, (addVotes true counts cands).2 = some c →
        lookupCount (addVotes true counts cands).1 c = 2) := by
  induction cands with
  | nil =>
    intro counts h
    exact ⟨fun _ s => h s, fun c hc => by simp [addVotes] at hc⟩
  | cons cand rest ih =>
    intro counts h
    unfold addVotes
    by_cases hcand : cand = ""
    · rw [if_neg (by simpa using hcand)]
      exact ih counts h
    · rw [if_pos (by simpa using hcand)]
      by_cases htr : (2 ≤ lookupCount (bump counts cand) cand)
      · rw [if_pos (by simpa using htr)]
        refine ⟨fun hn => by simp at hn, fun c hc => ?_⟩
        obtain rfl : cand = c := by simpa using hc
        have hb := lookupCount_bump_self counts cand
        have hle := h cand
        simp only
        omega
      · rw [if_neg (by simpa using htr)]
        refine ih (bump counts cand) ?_
        intro s
        by_cases hs : s = cand
        · subst hs
          omega
        · rw [lookupCount_bump_ne counts cand s hs]
          exact h s

theorem dispatchStep_fastInv (models : List String) (st : DispatchState)
    (a : String × Settled) (h : FastInv st) :
    FastInv (dispatchStep models true st a) := by
  unfold dispatchStep
  by_cases hres : st.resolved
  · rw [if_pos hres]
    exact ⟨fun hw => ⟨(h.1 hw).1, (h.1 hw).2⟩, fun c hc => ⟨(h.2 c hc).1, (h.2 c hc).2⟩⟩
  · rw [if_neg hres]
    have hw : st.earlyWinner = none := by
      rcases hwc : st.earlyWinner with _ | c
      · rfl
      · exact absurd (h.2 c hwc).1 (by simpa using hres)
    have hbound := (h.1 hw).2
    by_cases hemp : a.2.candidates.isEmpty
    · rw [if_pos hemp]
      exact ⟨fun _ => ⟨by simpa using hres, hbound⟩,
        fun c hc => absurd (hw ▸ hc) (by simp)⟩
    · rw [if_neg hemp]
      rcases hv : addVotes true st.globalCounts a.2.candidates with ⟨counts', w⟩
      have hspec := addVotes_true_bound a.2.candidates st.globalCounts hbound
      rw [hv] at hspec
      cases w with
      | none =>
        simp only
        refine ⟨fun _ => ⟨by simpa using hres, ?_⟩,
          fun c hc => absurd (hw ▸ hc) (by simp)⟩
        exact hspec.1 rfl
      | some winner =>
        simp only
        refine ⟨fun hn => by simp at hn, fun c hc => ?_⟩
        obtain rfl : winner = c := by simpa using hc
        exact ⟨rfl, hspec.2 winner rfl⟩

theorem runState_fastInv (models : List String)
    (arrivals : List (String × Settled)) :
    FastInv (runState models true arrivals) := by
  suffices hgen : ∀ (l : List (String × Settled)) (st : DispatchState), FastInv st →
      FastInv (l.foldl (dispatchStep models true) st) by
    refine hgen arrivals ⟨[], [], false, none⟩ ?_
    exact ⟨fun _ => ⟨rfl, fun s => by simp [lookupCount_nil]⟩, fun c hc => by simp at hc⟩
  intro l
  induction l with
  | nil => intro st hst; exact hst
  | cons a rest ih =>
    intro st hst
    exact ih _ (dispatchStep_fastInv models st a hst)

end VllmOcr

namespace VllmOcr

/-! ## Reporting order (` _sortResultsByModelOrder`) -/

theorem indexOf_map_self (l : List String) (h : l.Nodup) :
    l.map (fun m => l.indexOf m) = List.range l.length := by
  induction l with
  | nil => rfl
  | cons a t ih =>
    simp only [List.nodup_cons] at h
    rw [List.map_cons, List.indexOf_cons_self]
    have hmap : t.map (fun m => (a :: t).indexOf m)
        = (t.map (fun m => t.indexOf m)).map Nat.succ := by
      rw [List.map_map]
      refine List.map_congr_left ?_
      intro m hm
      have hma : m ≠ a := fun he => h.1 (he ▸ hm)
      exact List.indexOf_cons_ne t hma.symm
    rw [hmap, ih h.2, List.length_cons, List.range_succ_eq_map]

theorem sortResults_sorted (models : List String) (rs : List ProviderResult) :
    (_sortResultsByModelOrder models rs).Sorted
      (fun a b => models.indexOf a.model ≤ models.indexOf b.model) := by
  haveI : IsTotal ProviderResult
      (fun a b => models.indexOf a.model ≤ models.indexOf b.model) :=
    ⟨fun a b => Nat.le_total _ _⟩
  haveI : IsTrans ProviderResult
      (fun a b => models.indexOf a.model ≤ models.indexOf b.model) :=
    ⟨fun _ _ _ hab hbc => Nat.le_trans hab hbc⟩
  exact List.sorted_insertionSort _ rs

theorem sortResults_models (models : List String) (rs : List ProviderResult)
    (hnd : models.Nodup)
    (hperm : List.Perm (rs.map (fun r => r.model)) models) :
    (_sortResultsByModelOrder models rs).map (fun r => r.model) = models := by
  set srt := _sortResultsByModelOrder models rs with hsrt
  have hperm2 : List.Perm (srt.map (fun r => r.model)) models :=
    (List.Perm.map _ (_sortResultsByModelOrder_perm models rs)).trans hperm
  -- the index keys of the sorted list form the sorted sequence 0, 1, ...
  have hkeys : srt.map (fun r => models.indexOf r.model) = List.range models.length := by
    refine List.eq_of_perm_of_sorted ?_ ?_ (List.sorted_le_range models.length)
    · have h1 : List.Perm ((srt.map (fun r => r.model)).map (fun m => models.indexOf m))
          (models.map (fun m => models.indexOf m)) := List.Perm.map _ hperm2
      rw [List.map_map] at h1
      rw [indexOf_map_self models hnd] at h1
      exact h1
    · have hs := sortResults_sorted models rs
      rw [← hsrt] at hs
      exact List.Pairwise.map _ (fun {a b} hab => hab) hs
  have hlen : srt.length = models.length := by
    have := hperm2.length_eq
    simpa using this
  refine List.ext_getElem (by simpa using hlen) ?_
  intro i h1 h2
  have hilt : i < srt.length := by simpa using h1
  have hki : models.indexOf srt[i].model = i := by
    have h3 := congrArg (fun l => l[i]?) hkeys
    simp only [List.getElem?_map] at h3
    rw [List.getElem?_eq_getElem hilt] at h3
    rw [List.getElem?_range h2] at h3
    simpa using h3
  have hmem : srt[i].model ∈ models := by
    refine hperm2.subset ?_
    exact List.mem_map_of_mem _ (List.getElem_mem _)
  have hlt : models.indexOf srt[i].model < models.length :=
    List.indexOf_lt_length.mpr hmem
  have h4 := List.indexOf_get (a := srt[i].model) (l := models) hlt
  rw [List.getElem_map]
  rw [← h4]
  simp only [List.get_eq_getElem]
  congr 1

end VllmOcr

namespace VllmOcr

/-! ## JSON-substring extraction lemmas -/

theorem findIdx?_getElem {s : List Char} {c : Char} {i : Nat}
    (h : s.findIdx? (fun x => x == c) = some i) :
    i < s.length ∧ s[i]? = some c := by
  obtain ⟨hlt, hp, _⟩ := List.findIdx?_eq_some_iff_getElem.mp h
  refine ⟨hlt, ?_⟩
  rw [List.getElem?_eq_getElem hlt]
  have : s[i] = c := by simpa using hp
  rw [this]

theorem lastIdxOf_getElem {s : List Char} {c : Char} {j : Nat}
    (h : lastIdxOf s c = some j) :
    j < s.length ∧ s[j]? = some c := by
  unfold lastIdxOf at h
  rcases hk : s.reverse.findIdx? (fun x => x == c) with _ | k
  · rw [hk] at h
    simp at h
  · rw [hk] at h
    obtain rfl : s.length - 1 - k = j := by simpa using h
    obtain ⟨hklt, hkv⟩ := findIdx?_getElem hk
    rw [List.length_reverse] at hklt
    have hlen : 0 < s.length := Nat.lt_of_le_of_lt (Nat.zero_le k) hklt
    refine ⟨by omega, ?_⟩
    rw [List.getElem?_reverse hklt] at hkv
    exact hkv

theorem slice_head_last {s : List Char} {i j : Nat}
    (hij : i < j) (hj : j < s.length)
    (hi : s[i]? = some lbrace) (hjv : s[j]? = some rbrace) :
    ((s.drop i).take (j + 1 - i)).head? = some lbrace ∧
    ((s.drop i).take (j + 1 - i)).getLast? = some rbrace := by
  constructor
  · rw [List.head?_eq_getElem?]
    rw [List.getElem?_take_of_lt (by omega)]
    rw [List.getElem?_drop]
    simpa using hi
  · have hlen : ((s.drop i).take (j + 1 - i)).length = j + 1 - i := by
      rw [List.length_take, List.length_drop]
      omega
    rw [List.getLast?_eq_getElem?, hlen]
    have hlt : j + 1 - i - 1 < j + 1 - i := by omega
    rw [List.getElem?_take_of_lt hlt]
    rw [List.getElem?_drop]
    have : i + (j + 1 - i - 1) = j := by omega
    rw [this]
    exact hjv

end VllmOcr

namespace VllmOcr

/-! ## Claim theorems -/

/-- Claim C2: for every collection of provider results whose flattened
candidate multiset is non-empty, `_vote` returns a member of that
multiset; and any string whose tally strictly exceeds every other
string's tally is the returned Decision. -/
theorem claim_C2 (models : List String) (results : List ProviderResult) :
    (flatCands results ≠ [] →
      ∃ d, _vote models results = some d ∧ d ∈ flatCands results) ∧
    (∀ x ∈ flatCands results,
      (∀ y ∈ flatCands results, y ≠ x →
        (flatCands results).count y < (flatCands results).count x) →
      _vote models results = some x) := by
  constructor
  · intro hne
    obtain ⟨d, hd⟩ := _vote_isSome models results hne
    exact ⟨d, hd, _vote_mem models results d hd⟩
  · intro x hx hmax
    exact _vote_plurality models results x hx hmax

/-- Claim C2, witnessed at spec Scenario 1: providers return
`ABCD`, `ABCD`, `WXYZ`; the 2-vs-1 plurality gives Decision `ABCD`,
which is also a member of the multiset. -/
theorem claim_C2_witness :
    _vote ["P1", "P2", "P3"]
      [⟨"P1", ["ABCD"], none, 0⟩, ⟨"P2", ["ABCD"], none, 0⟩,
       ⟨"P3", ["WXYZ"], none, 0⟩] = some "ABCD" :=
  (claim_C2 ["P1", "P2", "P3"]
      [⟨"P1", ["ABCD"], none, 0⟩, ⟨"P2", ["ABCD"], none, 0⟩,
       ⟨"P3", ["WXYZ"], none, 0⟩]).2 "ABCD" (by decide) (by decide)

/-- Claim C3: the source's tie-break is exactly the spec's nested
walk — providers in configured priority order, each provider's
candidate list in its ranked order, first candidate in the tied top
set — and in particular, with three providers contributing one
distinct guess each (a three-way tie), the highest-priority provider's
guess wins. -/
theorem claim_C3 :
    (∀ (models : List String) (results : List ProviderResult) (top : List String),
      tieBreakLoop models results top = specTieBreakWalk models results top) ∧
    (∀ (m1 m2 m3 a b c : String) (e1 e2 e3 : Option String) (d1 d2 d3 : Nat),
      a ≠ b → a ≠ c → b ≠ c →
      _vote [m1, m2, m3]
        [⟨m1, [a], e1, d1⟩, ⟨m2, [b], e2, d2⟩, ⟨m3, [c], e3, d3⟩] = some a) :=
  ⟨tieBreakLoop_eq_specWalk, _vote_three_way_tie⟩

/-- Claim C3, witnessed at spec Scenario 2: a three-way tie between
`ABCD`, `WXYZ`, `QRST` under priority order `[P1, P2, P3]` is broken
in favour of P1's guess `ABCD`. -/
theorem claim_C3_witness :
    _vote ["P1", "P2", "P3"]
      [⟨"P1", ["ABCD"], none, 0⟩, ⟨"P2", ["WXYZ"], none, 0⟩,
       ⟨"P3", ["QRST"], none, 0⟩] = some "ABCD" :=
  claim_C3.2 "P1" "P2" "P3" "ABCD" "WXYZ" "QRST" none none none 0 0 0
    (by decide) (by decide) (by decide)

/-- Claim C5: an empty flattened candidate multiset — in particular
when every provider fails and so contributes an empty candidate
list — makes `_vote` return the absence value `none` rather than
throwing, and the whole recognition call then resolves with
`final_text = none`. -/
theorem claim_C5 :
    (∀ (models : List String) (results : List ProviderResult),
      flatCands results = [] → _vote models results = none) ∧
    (∀ (models : List String) (fm : Bool) (arrivals : List (String × Settled)),
      (∀ a ∈ arrivals, a.2.candidates = []) →
      (runDispatch models fm arrivals).final_text = none) :=
  ⟨_vote_of_flat_nil, runDispatch_all_failed⟩

/-- Claim C5, witnessed at spec Scenario 3: both providers fail with
transport errors; the call resolves with `final_text = none`. -/
theorem claim_C5_witness :
    (runDispatch ["A", "B"] false
      [("A", ⟨[], some "API Error: 500 - oops", 12⟩),
       ("B", ⟨[], some "API Error: 503 - down", 15⟩)]).final_text = none :=
  claim_C5.2 ["A", "B"] false
    [("A", ⟨[], some "API Error: 500 - oops", 12⟩),
     ("B", ⟨[], some "API Error: 503 - down", 15⟩)] (by decide)

/-- Claim C6: the normalizer is total, its output alphabet is
restricted to {A-Z, 0-9}, it is idempotent, and the empty string and
the JS `null`/`undefined` (both modelled by `none`) normalize to the
empty string. -/
theorem claim_C6 :
    (∀ t : Option String, (_postProcess t).data.all isUpperAlnum = true) ∧
    (∀ t : Option String, _postProcess (some (_postProcess t)) = _postProcess t) ∧
    _postProcess (some "") = "" ∧ _postProcess none = "" :=
  ⟨_postProcess_all_upperAlnum, _postProcess_idem, rfl, rfl⟩

/-- Claim C10: votes are tallied per candidate occurrence, not per
distinct provider — the tally of a string equals its occurrence count
in the flattened candidate list — and in fast mode a single provider
whose list repeats one normalized string reaches the finalization
threshold of 2 on its own. -/
theorem claim_C10 :
    (∀ (results : List ProviderResult) (s : String),
      lookupCount (countsOf results) s = (flatCands results).count s) ∧
    (runDispatch ["n1", "n2"] true
      [("n1", ⟨["Z9X", "Z9X"], none, 3⟩),
       ("n2", ⟨["Q7Q"], none, 4⟩)]).final_text = some "Z9X" :=
  ⟨lookupCount_countsOf, by decide⟩

end VllmOcr

namespace VllmOcr

theorem runDispatch_details_perm (models : List String) (fm : Bool)
    (arrivals : List (String × Settled)) :
    List.Perm ((runDispatch models fm arrivals).details.map (fun r => r.model))
      (arrivals.map Prod.fst) := by
  unfold runDispatch
  simp only
  rcases hw : (runState models fm arrivals).earlyWinner with _ | w
  · simp only
    exact (List.Perm.map _ (_sortResultsByModelOrder_perm _ _)).trans
      (runState_results_models models fm arrivals)
  · simp only
    exact runState_results_models models fm arrivals

/-- Claim C1 (amended): the fast-mode dispatcher finalizes exactly
when some candidate's running occurrence tally reaches 2 — before
early resolution every tally is at most 1, and the recorded winner's
tally is exactly 2.  The votes are occurrence counts, so the two
votes normally come from two distinct providers but can also come
from one provider whose ranked list repeats a normalized string (see
the counterexample to the original claim). -/
theorem claim_C1 (models : List String) (arrivals : List (String × Settled)) :
    ((runState models true arrivals).earlyWinner = none →
      ∀ s, lookupCount (runState models true arrivals).globalCounts s ≤ 1) ∧
    (∀ c, (runState models true arrivals).earlyWinner = some c →
      lookupCount (runState models true arrivals).globalCounts c = 2) := by
  have h := runState_fastInv models arrivals
  exact ⟨fun hw => (h.1 hw).2, fun c hc => (h.2 c hc).2⟩

/-- Claim C1, counterexample to the original statement: in fast mode a
single provider returning `["AB1", "AB1"]` alone raises the tally of
`AB1` to 2 and triggers early finalization — the other provider is
recorded as skipped, so finalization did not require two distinct
providers. -/
theorem claim_C1_counterexample :
    (runDispatch ["m1", "m2"] true
      [("m1", ⟨["AB1", "AB1"], none, 5⟩), ("m2", ⟨["CD2"], none, 9⟩)]).final_text
      = some "AB1" ∧
    (runDispatch ["m1", "m2"] true
      [("m1", ⟨["AB1", "AB1"], none, 5⟩), ("m2", ⟨["CD2"], none, 9⟩)]).details.map
        (fun r => r.error) = [none, some "Skipped (Consensus Reached)"] := by
  decide

/-- Claim C1, witnessed: two distinct providers agree on `KX2` while a
third is still pending; the recorded winner's tally is exactly 2. -/
theorem claim_C1_witness :
    lookupCount (runState ["w1", "w2", "w3"] true
      [("w1", ⟨["KX2"], none, 1⟩), ("w2", ⟨["KX2"], none, 2⟩)]).globalCounts
      "KX2" = 2 :=
  (claim_C1 ["w1", "w2", "w3"]
    [("w1", ⟨["KX2"], none, 1⟩), ("w2", ⟨["KX2"], none, 2⟩)]).2 "KX2" (by decide)

/-- Claim C4: for every complete recognition call (one settlement per
configured provider, fast mode or exhaustive), the details collection
contains exactly one entry per configured model — cancelled calls are
recorded as skipped entries rather than omitted. -/
theorem claim_C4 (models : List String) (fm : Bool)
    (arrivals : List (String × Settled)) (hnd : models.Nodup)
    (hperm : List.Perm (arrivals.map Prod.fst) models) :
    List.Perm ((runDispatch models fm arrivals).details.map (fun r => r.model))
      models ∧
    (runDispatch models fm arrivals).details.length = models.length ∧
    (∀ m ∈ models,
      ((runDispatch models fm arrivals).details.map (fun r => r.model)).count m
        = 1) := by
  have hp : List.Perm
      ((runDispatch models fm arrivals).details.map (fun r => r.model)) models :=
    (runDispatch_details_perm models fm arrivals).trans hperm
  refine ⟨hp, ?_, ?_⟩
  · have h2 := hp.length_eq
    rwa [List.length_map] at h2
  · intro m hm
    rw [hp.count_eq]
    exact List.count_eq_one_of_mem hnd hm

/-- Claim C4, witnessed at spec Scenario 3 (two providers, both
failing): the details still hold one entry per configured model. -/
theorem claim_C4_witness :
    List.Perm ((runDispatch ["A", "B"] false
      [("B", ⟨[], some "API Error: 500 - x", 3⟩),
       ("A", ⟨[], some "API Error: 502 - y", 4⟩)]).details.map (fun r => r.model))
      ["A", "B"] ∧
    (runDispatch ["A", "B"] false
      [("B", ⟨[], some "API Error: 500 - x", 3⟩),
       ("A", ⟨[], some "API Error: 502 - y", 4⟩)]).details.length = 2 ∧
    (∀ m ∈ ["A", "B"],
      ((runDispatch ["A", "B"] false
        [("B", ⟨[], some "API Error: 500 - x", 3⟩),
         ("A", ⟨[], some "API Error: 502 - y", 4⟩)]).details.map
          (fun r => r.model)).count m = 1) :=
  claim_C4 ["A", "B"] false
    [("B", ⟨[], some "API Error: 500 - x", 3⟩),
     ("A", ⟨[], some "API Error: 502 - y", 4⟩)] (by decide) (by decide)

/-- Claim C7: every candidate the adapter extracts is normalized and
non-empty, and only such candidates can appear as keys of the vote
tally — whether the exhaustive tally of `_vote` or the fast-mode
running tally of the dispatcher. -/
theorem claim_C7 :
    (∀ (p : ParsedResponse) (c : String),
      c ∈ extractCandidates p → validCandidate c) ∧
    (∀ results : List ProviderResult,
      (∀ r ∈ results, ∀ c ∈ r.candidates, validCandidate c) →
      ∀ k ∈ (countsOf results).map Prod.fst, validCandidate k) ∧
    (∀ (models : List String) (fm : Bool) (arrivals : List (String × Settled)),
      (∀ a ∈ arrivals, ∀ c ∈ a.2.candidates, validCandidate c) →
      ∀ k ∈ ((runState models fm arrivals).globalCounts).map Prod.fst,
        validCandidate k) := by
  refine ⟨extractCandidates_valid, countsOf_keys_valid, ?_⟩
  intro models fm arrivals h k hk
  obtain ⟨a, ha, hc⟩ := runState_counts_keys models fm arrivals k hk
  exact h a ha k hc

/-- Claim C7, witnessed: the guess `"ab cd"` is normalized to the
valid candidate `ABCD` by extraction; a valid candidate list keeps the
tally keys valid in both tallies. -/
theorem claim_C7_witness :
    validCandidate "ABCD" ∧ validCandidate "K9" ∧ validCandidate "J7" :=
  ⟨claim_C7.1 ⟨some [some "ab cd"], none⟩ "ABCD" (by decide),
   claim_C7.2.1 [⟨"P1", ["K9"], none, 0⟩] (by decide) "K9" (by decide),
   claim_C7.2.2 ["P1"] true [("P1", ⟨["J7"], none, 0⟩)] (by decide) "J7" (by decide)⟩

/-- Claim C8 (amended): whenever no early consensus fires — always
the case in exhaustive mode — the details returned to the caller are
resorted to match the configured model order exactly.  (When fast-mode
consensus fires, the skipped entries recorded after resolution are
appended after the sorted prefix; see the counterexample.) -/
theorem claim_C8 :
    (∀ (models : List String) (arrivals : List (String × Settled)),
      (runState models false arrivals).earlyWinner = none) ∧
    (∀ (models : List String) (fm : Bool) (arrivals : List (String × Settled)),
      models.Nodup → List.Perm (arrivals.map Prod.fst) models →
      (runState models fm arrivals).earlyWinner = none →
      (runDispatch models fm arrivals).details.map (fun r => r.model) = models) := by
  refine ⟨fun models arrivals => (runState_false models arrivals).2, ?_⟩
  intro models fm arrivals hnd hperm hw
  unfold runDispatch
  simp only
  rw [hw]
  simp only
  exact sortResults_models models _ hnd
    ((runState_results_models models fm arrivals).trans hperm)

/-- Claim C8, counterexample to the original statement: in a fast-mode
run with models configured `[A, B, C]`, completions arriving C then B
(reaching consensus) and A cancelled, the caller's details read
`[B, C, A]` — the skipped entry is appended after the sorted prefix,
so the collection does not match the configured order. -/
theorem claim_C8_counterexample :
    (runDispatch ["A", "B", "C"] true
      [("C", ⟨["X1"], none, 1⟩), ("B", ⟨["X1"], none, 2⟩),
       ("A", ⟨["Z2"], none, 3⟩)]).details.map (fun r => r.model)
      = ["B", "C", "A"] ∧
    ¬ (runDispatch ["A", "B", "C"] true
      [("C", ⟨["X1"], none, 1⟩), ("B", ⟨["X1"], none, 2⟩),
       ("A", ⟨["Z2"], none, 3⟩)]).details.map (fun r => r.model)
      = ["A", "B", "C"] := by
  decide

/-- Claim C8, witnessed: an exhaustive-mode run whose completions
arrive out of order is reported resorted to the configured order. -/
theorem claim_C8_witness :
    (runDispatch ["A", "B"] false
      [("B", ⟨["QQ4"], none, 7⟩), ("A", ⟨["RR5"], none, 9⟩)]).details.map
        (fun r => r.model) = ["A", "B"] :=
  claim_C8.2 ["A", "B"] false
    [("B", ⟨["QQ4"], none, 7⟩), ("A", ⟨["RR5"], none, 9⟩)]
    (by decide) (by decide)
    (claim_C8.1 ["A", "B"] [("B", ⟨["QQ4"], none, 7⟩), ("A", ⟨["RR5"], none, 9⟩)])

end VllmOcr

namespace VllmOcr

/-- Claim C9: the recovery step first selects the body of a code fence
when one matches (otherwise the raw content); then, when the selected
string has an opening brace with a later closing brace, it decodes
exactly the substring from the first opening brace to the last closing
brace — which therefore starts with the opening brace and ends with
the closing one — and otherwise decodes the selected string
unchanged. -/
theorem claim_C9 (content : List Char) :
    (∀ i j, (selectedString content).findIdx? (fun x => x == lbrace) = some i →
      lastIdxOf (selectedString content) rbrace = some j → i < j →
      extractJsonString content =
        ((selectedString content).drop i).take (j + 1 - i) ∧
      (extractJsonString content).head? = some lbrace ∧
      (extractJsonString content).getLast? = some rbrace) ∧
    ((∀ i j, (selectedString content).findIdx? (fun x => x == lbrace) = some i →
      lastIdxOf (selectedString content) rbrace = some j → ¬ i < j) →
      extractJsonString content = selectedString content) := by
  have hdef : extractJsonString content =
      match (selectedString content).findIdx? (fun x => x == lbrace),
        lastIdxOf (selectedString content) rbrace with
      | some i, some j =>
        if i < j then ((selectedString content).drop i).take (j + 1 - i)
        else selectedString content
      | _, _ => selectedString content := rfl
  constructor
  · intro i j hi hj hij
    have heq : extractJsonString content =
        ((selectedString content).drop i).take (j + 1 - i) := by
      rw [hdef, hi, hj]
      simp only
      rw [if_pos hij]
    obtain ⟨hilt, hiv⟩ := findIdx?_getElem hi
    obtain ⟨hjlt, hjv⟩ := lastIdxOf_getElem hj
    have hslice := slice_head_last hij hjlt hiv hjv
    exact ⟨heq, heq ▸ hslice.1, heq ▸ hslice.2⟩
  · intro hno
    rw [hdef]
    rcases hi : (selectedString content).findIdx? (fun x => x == lbrace) with _ | i
    · rcases hj : lastIdxOf (selectedString content) rbrace with _ | j
      · rfl
      · rfl
    · rcases hj : lastIdxOf (selectedString content) rbrace with _ | j
      · rfl
      · simp only
        rw [if_neg (hno i j hi hj)]

/-- Claim C9, witnessed: raw content `x {A} y` with no fence — the
first opening brace is at index 2, the last closing brace at index 4,
and the decoded string is exactly the brace-delimited slice. -/
theorem claim_C9_witness :
    extractJsonString ['x', ' ', lbrace, 'A', rbrace, ' ', 'y'] =
      ((selectedString ['x', ' ', lbrace, 'A', rbrace, ' ', 'y']).drop 2).take
        (4 + 1 - 2) ∧
    (extractJsonString ['x', ' ', lbrace, 'A', rbrace, ' ', 'y']).head?
      = some lbrace ∧
    (extractJsonString ['x', ' ', lbrace, 'A', rbrace, ' ', 'y']).getLast?
      = some rbrace :=
  (claim_C9 ['x', ' ', lbrace, 'A', rbrace, ' ', 'y']).1 2 4
    (by decide) (by decide) (by decide)

end VllmOcr
